import Mathlib

/-!
Shallow embedding of the UK postcode enricher (`src/app.js`) and proofs
about its specification.  Strings are modelled as Lean `String`s (lists of
characters), JavaScript objects whose fields matter as association lists,
and the asynchronous batch API as an oracle mapping a chunk index and an
attempt number to the outcome of that request.
-/

namespace PostcodeApp

/-- The fixed list of twelve semantic fields (`FIELDS` in `app.js`). -/
def FIELDS : List String :=
  ["country", "nhs_ha", "admin_county", "admin_district", "admin_ward",
   "parliamentary_constituency", "european_electoral_region",
   "primary_care_trust", "region", "parish", "latitude", "longitude"]

/-- An enriched row: a JavaScript object with string values, modelled as an
association list in property-insertion order. -/
abbrev Row := List (String × String)

/-- JavaScript property read `r[h]`, `none` when the property is absent. -/
def getField (r : Row) (h : String) : Option String :=
  (r.find? (fun p => p.1 == h)).map (fun p => p.2)

/-- Does a character force CSV quoting (the regex `/[",\n]/` in `esc`)? -/
def specialChar (c : Char) : Bool :=
  c = '"' || c = ',' || c = '\n'

/-- Does the string contain a quote, comma or newline (test of `/[",\n]/`)? -/
def hasSpecial (cs : List Char) : Bool :=
  cs.any specialChar

/-- Model of `str.replace(/"/g, '""')`: double every double quote. -/
def dq : List Char → List Char
  | [] => []
  | c :: cs => if c = '"' then '"' :: '"' :: dq cs else c :: dq cs

/-- Character-level CSV escaping from `esc` in `toCSV`. -/
def escC (v : List Char) : List Char :=
  if hasSpecial v then '"' :: dq v ++ ['"'] else v

/-- The `esc` helper of `toCSV`: null/undefined become the empty string,
otherwise the value is escaped. -/
def esc : Option String → String
  | none => ""
  | some s => String.mk (escC s.data)

/-- Model of `Array.prototype.join(sep)` on character lists. -/
def joinSep (sep : List Char) : List (List Char) → List Char
  | [] => []
  | [x] => x
  | x :: y :: xs => x ++ sep ++ joinSep sep (y :: xs)

/-- Model of `list.join(',')` for strings. -/
def joinC (l : List String) : String :=
  String.mk (joinSep [','] (l.map String.data))

/-- The `lines` array built by `toCSV`: the raw header line followed by one
escaped line per row, in order. -/
def csvLines (rows : List Row) (header : List String) : List String :=
  joinC header :: rows.map (fun r => joinC (header.map (fun h => esc (getField r h))))

/-- Model of `toCSV(rows, header)`: the lines joined with a single newline. -/
def toCSV (rows : List Row) (header : List String) : String :=
  String.mk (joinSep ['\n'] ((csvLines rows header).map String.data))

/-- One step per character of a standard comma/quote-aware CSV reader.
`inQ` says whether we are inside a quoted section, `f` is the field read so
far, `r` the fields of the current record; the result is the record list. -/
def csvRun (inQ : Bool) : List Char → List Char → List (List Char) → List (List (List Char))
  | [], f, r => [r ++ [f]]
  | [c], f, r =>
    if inQ then
      if c = '"' then [r ++ [f]]
      else [r ++ [f ++ [c]]]
    else
      if c = '"' then [r ++ [f]]
      else if c = ',' then [(r ++ [f]) ++ [[]]]
      else if c = '\n' then [r ++ [f], [[]]]
      else [r ++ [f ++ [c]]]
  | c :: d :: rest, f, r =>
    if inQ then
      if c = '"' then
        if d = '"' then csvRun true rest (f ++ ['"']) r
        else csvRun false (d :: rest) f r
      else csvRun true (d :: rest) (f ++ [c]) r
    else
      if c = '"' then csvRun true (d :: rest) f r
      else if c = ',' then csvRun false (d :: rest) [] (r ++ [f])
      else if c = '\n' then (r ++ [f]) :: csvRun false (d :: rest) [] []
      else csvRun false (d :: rest) (f ++ [c]) r

/-- Parse CSV text into its records (lists of fields). -/
def csvParse (s : String) : List (List String) :=
  (csvRun false s.data [] []).map (fun rec => rec.map (fun cs => String.mk cs))

/-- Character classes of the spacing regex: `[A-Z]`. -/
def regL (c : Char) : Bool := decide ('A' ≤ c ∧ c ≤ 'Z')

/-- Character class `\d` (after compaction: `[0-9]`). -/
def regD (c : Char) : Bool := decide ('0' ≤ c ∧ c ≤ '9')

/-- Character class `[A-Z\d]`. -/
def regAD (c : Char) : Bool := regL c || regD c

/-- Characters kept by `replace(/[^A-Z0-9]/g, '')`. -/
def keepAZ09 (c : Char) : Bool := regAD c

/-- Model of `s.toUpperCase().replace(/[^A-Z0-9]/g, '')`: the compacted token. -/
def compactStr (s : String) : String :=
  String.mk ((s.data.map Char.toUpper).filter keepAZ09)

/-- Group 1 of the spacing regex: `[A-Z]{1,2}\d[A-Z\d]?`, anchored. -/
def outwardOK : List Char → Bool
  | [a, b] => regL a && regD b
  | [a, b, c] => (regL a && regL b && regD c) || (regL a && regD b && regAD c)
  | [a, b, c, d] => regL a && regL b && regD c && regAD d
  | _ => false

/-- Group 2 of the spacing regex: `\d[A-Z]{2}`, anchored at the end. -/
def inwardOK : List Char → Bool
  | [a, b, c] => regD a && regL b && regL c
  | _ => false

/-- Does the compacted token match
`/^([A-Z]{1,2}\d[A-Z\d]?)(\d[A-Z]{2})$/`?  Group 2 is exactly three
characters and the match is anchored, so the split point is fixed. -/
def shapeOK (cs : List Char) : Bool :=
  outwardOK (cs.take (cs.length - 3)) && inwardOK (cs.drop (cs.length - 3))

/-- The replacement `'$1 $2'`: insert a space before the inward part when
the regex matches, otherwise leave the string unchanged. -/
def addSpace (cs : List Char) : List Char :=
  if shapeOK cs then cs.take (cs.length - 3) ++ ' ' :: cs.drop (cs.length - 3) else cs

/-- The body of `normalize` applied to an already compacted token. -/
def normCore (c : String) : String :=
  if c.length < 5 ∨ 8 < c.length then "" else String.mk (addSpace c.data)

/-- Model of `normalize` from `parsePostcodes`: compact, length-check, space. -/
def normalize (s : String) : String :=
  normCore (compactStr s)

/-- ASCII whitespace removed by `String.prototype.trim`. -/
def isWS (c : Char) : Bool :=
  c = ' ' || c = '\t' || c = '\n' || c = '\r' || c = '\x0b' || c = '\x0c'

/-- Model of `trim` on character lists: drop whitespace at both ends. -/
def trimData (cs : List Char) : List Char :=
  ((cs.dropWhile isWS).reverse.dropWhile isWS).reverse

/-- Model of `s.trim()`. -/
def trimStr (s : String) : String :=
  String.mk (trimData s.data)

/-- Model of `raw.replace(/,/g, '\n')`. -/
def replaceCommas (cs : List Char) : List Char :=
  cs.map (fun c => if c = ',' then '\n' else c)

/-- Prepend a character to the first piece of a split result. -/
def consHead (c : Char) : List (List Char) → List (List Char)
  | [] => [[c]]
  | t :: ts => (c :: t) :: ts

/-- Model of `split(/\r?\n/)`: split at newlines, an immediately preceding carriage
return being absorbed into the separator. -/
def splitRN : List Char → List (List Char)
  | [] => [[]]
  | [c] =>
    if c = '\n' then [[], []]
    else if c = '\r' then [['\r']]
    else [[c]]
  | c :: d :: rest =>
    if c = '\n' then [] :: splitRN (d :: rest)
    else if c = '\r' then
      if d = '\n' then [] :: splitRN rest else consHead '\r' (splitRN (d :: rest))
    else consHead c (splitRN (d :: rest))

/-- The token pipeline of `parsePostcodes` before deduplication: replace
commas, split lines, trim, normalize, keep truthy (non-empty) results. -/
def tokensOf (raw : String) : List String :=
  ((splitRN (replaceCommas raw.data)).map
    (fun cs => normalize (trimStr (String.mk cs)))).filter (fun s => !(s == ""))

/-- The `seen`-set loop of `parsePostcodes`: keep first occurrences. -/
def dedupAux : List String → List String → List String
  | [], _ => []
  | x :: xs, seen => if x ∈ seen then dedupAux xs seen else x :: dedupAux xs (x :: seen)

/-- Model of `parsePostcodes(raw)`. -/
def parsePostcodes (raw : String) : List String :=
  dedupAux (tokensOf raw) []

/-- Join a list of postal codes with newlines (for re-parsing). -/
def joinNl (l : List String) : String :=
  String.mk (joinSep ['\n'] (l.map String.data))

/-- A JSON field value of an API result object: present with a string,
present but null, or absent (`none` at the outer level). -/
abbrev ResObj := List (String × Option String)

/-- One element of the API `result` array: a query echo and an optional
match object. -/
structure APIItem where
  query : Option String
  result : Option ResObj

/-- JavaScript property read on a result object: `none` = undefined,
`some none` = null. -/
def getKey (r : ResObj) (k : String) : Option (Option String) :=
  (r.find? (fun p => p.1 == k)).map (fun p => p.2)

/-- Model of `s.toUpperCase()` (character-wise ASCII uppercasing). -/
def jsUpper (s : String) : String :=
  String.mk (s.data.map Char.toUpper)

/-- Model of `(res?.postcode || item.query || '').toUpperCase()`: the fallback chain
treats undefined, null and the empty string as falsy. -/
def pcOf (item : APIItem) : String :=
  jsUpper (match item.result with
    | some res =>
      match getKey res "postcode" with
      | some (some p) => if p = "" then item.query.getD "" else p
      | _ => item.query.getD ""
    | none => item.query.getD "")

/-- Model of `res ? (res[f] ?? '') : ''` with the extra null-to-empty guard. -/
def fieldOf (item : APIItem) (f : String) : String :=
  match item.result with
  | some res =>
    match getKey res f with
    | some (some v) => v
    | _ => ""
  | none => ""

/-- Build the enriched row for one API result item. -/
def mkRow (item : APIItem) : Row :=
  ("postcode", pcOf item) :: FIELDS.map (fun f => (f, fieldOf item f))

/-- The network oracle: attempt `a` of the batch request for chunk `ci`
either fails (`none`: non-success status or transport error) or returns
the `result` array. -/
abbrev Oracle := Nat → Nat → Option (List APIItem)

/-- The three-attempt retry loop for one chunk, returning the result (if
any) and the total backoff milliseconds slept (`750 * (attempt + 1)` after
each failed attempt). -/
def attempt3 (o : Nat → Option (List APIItem)) : Option (List APIItem) × Nat :=
  match o 0 with
  | some r => (some r, 0)
  | none =>
    match o 1 with
    | some r => (some r, 750)
    | none =>
      match o 2 with
      | some r => (some r, 750 + 1500)
      | none => (none, 750 + 1500 + 2250)

/-- Model of `slice(i, i + 100)` chunking of the postcode list. -/
def chunkList : List String → List (List String)
  | [] => []
  | x :: xs => (x :: xs.take 99) :: chunkList (xs.drop 99)
termination_by l => l.length
decreasing_by
  simp only [List.length_cons, List.length_drop]
  omega

/-- Process the chunks sequentially: a chunk whose three attempts all fail
aborts the whole operation with the `Failed to fetch after retries` error;
otherwise its items are flattened into rows.  The second component is the
total backoff time slept. -/
def enrichChunks (oracle : Oracle) : Nat → List (List String) → Except String (List Row) × Nat
  | _, [] => (Except.ok [], 0)
  | ci, _chunk :: rest =>
    match attempt3 (oracle ci) with
    | (none, t) => (Except.error "Failed to fetch after retries", t)
    | (some items, t) =>
      match enrichChunks oracle (ci + 1) rest with
      | (Except.ok rows, t2) => (Except.ok (items.map mkRow ++ rows), t + t2)
      | (Except.error e, t2) => (Except.error e, t + t2)

/-- Model of `enrich(postcodes)` under a given network oracle. -/
def enrich (oracle : Oracle) (postcodes : List String) : Except String (List Row) × Nat :=
  enrichChunks oracle 0 (chunkList postcodes)

/-- Model of `renderTable`: `none` when the results view is hidden (empty row list),
otherwise the header cells and the displayed data rows (at most 500,
missing values as empty cells). -/
def renderTable (rows : List Row) (header : List String) :
    Option (List String × List (List String)) :=
  if rows = [] then none
  else some (header, (rows.take 500).map (fun r => header.map (fun h => (getField r h).getD "")))

/-- The data rows actually displayed by `renderTable`. -/
def renderBody (rows : List Row) (header : List String) : List (List String) :=
  match renderTable rows header with
  | none => []
  | some p => p.2

/-- The header used by the run handler: `['postcode', ...FIELDS]`. -/
def header0 : List String := "postcode" :: FIELDS

/-- The externally observable UI state after the run handler finishes. -/
structure UIState where
  status : String
  resultsShown : Bool
  tableRows : List (List String)
  downloadEnabled : Bool
  csv : Option String

/-- The `runBtn` click handler: parse, enrich, then either render the table
and prepare the CSV artifact, or show the generic error state. -/
def runClick (oracle : Oracle) (inputText : String) : UIState :=
  let pcs := parsePostcodes inputText
  if pcs = [] then
    ⟨"Please paste at least one postcode.", false, [], false, none⟩
  else
    match (enrich oracle pcs).1 with
    | Except.ok rows =>
      ⟨"Enriched " ++ toString rows.length ++ " postcodes",
        !rows.isEmpty, renderBody rows header0, true, some (toCSV rows header0)⟩
    | Except.error _ =>
      ⟨"Error enriching data. Please try again.", false, [], false, none⟩

/-! ### Lemmas about the CSV reader -/

lemma csvRun_true_qq (rest f r) :
    csvRun true ('"' :: '"' :: rest) f r = csvRun true rest (f ++ ['"']) r := rfl

lemma csvRun_true_q_not (d : Char) (rest f r) (hd : d ≠ '"') :
    csvRun true ('"' :: d :: rest) f r = csvRun false (d :: rest) f r := by
  simp [csvRun, hd]

lemma csvRun_true_q_nil (f r) : csvRun true ['"'] f r = [r ++ [f]] := rfl

lemma csvRun_true_ch (c : Char) (rest f r) (hc : c ≠ '"') :
    csvRun true (c :: rest) f r = csvRun true rest (f ++ [c]) r := by
  cases rest <;> simp [csvRun, hc]

lemma csvRun_false_q (rest f r) :
    csvRun false ('"' :: rest) f r = csvRun true rest f r := by
  cases rest <;> rfl

lemma csvRun_false_comma (rest f r) :
    csvRun false (',' :: rest) f r = csvRun false rest [] (r ++ [f]) := by
  cases rest <;> rfl

lemma csvRun_false_nl (rest f r) :
    csvRun false ('\n' :: rest) f r = (r ++ [f]) :: csvRun false rest [] [] := by
  cases rest <;> rfl

lemma csvRun_false_ch (c : Char) (rest f r)
    (h1 : c ≠ '"') (h2 : c ≠ ',') (h3 : c ≠ '\n') :
    csvRun false (c :: rest) f r = csvRun false rest (f ++ [c]) r := by
  cases rest <;> simp [csvRun, h1, h2, h3]

lemma run_quoted (v : List Char) : ∀ rest f r,
    (∀ d, rest.head? = some d → d ≠ '"') →
    csvRun true (dq v ++ '"' :: rest) f r = csvRun false rest (f ++ v) r := by
  induction v with
  | nil =>
    intro rest f r hr
    cases rest with
    | nil => simp [dq, csvRun_true_q_nil, csvRun]
    | cons d rest' =>
      have hd : d ≠ '"' := hr d rfl
      simp [dq, csvRun_true_q_not d rest' f r hd]
  | cons a v' ih =>
    intro rest f r hr
    by_cases ha : a = '"'
    · subst ha
      have h1 : dq ('"' :: v') ++ '"' :: rest = '"' :: '"' :: (dq v' ++ '"' :: rest) := by
        simp [dq]
      rw [h1, csvRun_true_qq, ih rest (f ++ ['"']) r hr]
      simp
    · have h1 : dq (a :: v') ++ '"' :: rest = a :: (dq v' ++ '"' :: rest) := by
        simp [dq, ha]
      rw [h1, csvRun_true_ch a _ f r ha, ih rest (f ++ [a]) r hr]
      simp

lemma run_raw (v : List Char) : ∀ rest f r,
    (∀ c ∈ v, specialChar c = false) →
    csvRun false (v ++ rest) f r = csvRun false rest (f ++ v) r := by
  induction v with
  | nil => intro rest f r _; simp
  | cons c v' ih =>
    intro rest f r hv
    have hc := hv c (by simp)
    simp only [specialChar, Bool.or_eq_false_iff, decide_eq_false_iff_not] at hc
    rw [List.cons_append, csvRun_false_ch c _ f r hc.1.1 hc.1.2 hc.2,
      ih rest (f ++ [c]) r (fun x hx => hv x (by simp [hx]))]
    simp

lemma run_field (v rest : List Char) (f r)
    (hrest : ∀ d, rest.head? = some d → d = ',' ∨ d = '\n') :
    csvRun false (escC v ++ rest) f r = csvRun false rest (f ++ v) r := by
  by_cases hs : hasSpecial v
  · have h1 : escC v ++ rest = '"' :: (dq v ++ '"' :: rest) := by
      simp [escC, hs]
    rw [h1, csvRun_false_q, run_quoted v rest f r]
    intro d hd
    rcases hrest d hd with h | h <;> simp [h]
  · have h1 : escC v = v := by simp [escC, hs]
    rw [h1, run_raw v rest f r]
    intro c hc
    by_contra hcontra
    exact hs (List.any_of_mem hc (by simpa using hcontra))

lemma sep_head (c : Char) (l : List Char) (hc : c = ',' ∨ c = '\n') :
    ∀ d, (c :: l).head? = some d → d = ',' ∨ d = '\n' := by
  intro d hd
  simp only [List.head?_cons, Option.some.injEq] at hd
  rw [← hd]; exact hc

lemma run_line_last (vs : List (List Char)) (h : vs ≠ []) : ∀ r,
    csvRun false (joinSep [','] (vs.map escC)) [] r = [r ++ vs] := by
  induction vs with
  | nil => exact absurd rfl h
  | cons v tail ih =>
    intro r
    cases tail with
    | nil =>
      have h0 : joinSep [','] ([v].map escC) = escC v ++ [] := by simp [joinSep]
      rw [h0, run_field v [] [] r (by intro d hd; simp at hd)]
      simp [csvRun]
    | cons w t =>
      have h0 : joinSep [','] ((v :: w :: t).map escC)
          = escC v ++ ',' :: joinSep [','] ((w :: t).map escC) := by
        simp [joinSep]
      rw [h0, run_field v _ [] r (sep_head ',' _ (Or.inl rfl)),
        csvRun_false_comma, ih (by simp) (r ++ [[] ++ v])]
      simp

lemma run_line_cont (vs : List (List Char)) (h : vs ≠ []) : ∀ r rest,
    csvRun false (joinSep [','] (vs.map escC) ++ '\n' :: rest) [] r
      = (r ++ vs) :: csvRun false rest [] [] := by
  induction vs with
  | nil => exact absurd rfl h
  | cons v tail ih =>
    intro r rest
    cases tail with
    | nil =>
      have h0 : joinSep [','] ([v].map escC) ++ '\n' :: rest = escC v ++ '\n' :: rest := by
        simp [joinSep]
      rw [h0, run_field v _ [] r (sep_head '\n' _ (Or.inr rfl)), csvRun_false_nl]
      simp
    | cons w t =>
      have h0 : joinSep [','] ((v :: w :: t).map escC) ++ '\n' :: rest
          = escC v ++ ',' :: (joinSep [','] ((w :: t).map escC) ++ '\n' :: rest) := by
        simp [joinSep]
      rw [h0, run_field v _ [] r (sep_head ',' _ (Or.inl rfl)),
        csvRun_false_comma, ih (by simp) (r ++ [[] ++ v]) rest]
      simp

lemma run_table (vss : List (List (List Char))) (h0 : vss ≠ [])
    (h1 : ∀ vs ∈ vss, vs ≠ []) :
    csvRun false (joinSep ['\n'] (vss.map (fun vs => joinSep [','] (vs.map escC)))) [] []
      = vss := by
  induction vss with
  | nil => exact absurd rfl h0
  | cons vs tail ih =>
    cases tail with
    | nil =>
      have h2 : ([vs].map (fun vs => joinSep [','] (vs.map escC)))
          = [joinSep [','] (vs.map escC)] := by simp
      rw [h2]
      have h3 : joinSep ['\n'] [joinSep [','] (vs.map escC)] = joinSep [','] (vs.map escC) := by
        simp [joinSep]
      rw [h3, run_line_last vs (h1 vs (by simp)) []]
      simp
    | cons ws t =>
      have h2 : joinSep ['\n'] ((vs :: ws :: t).map (fun vs => joinSep [','] (vs.map escC)))
          = joinSep [','] (vs.map escC)
            ++ '\n' :: joinSep ['\n'] ((ws :: t).map (fun vs => joinSep [','] (vs.map escC))) := by
        simp [joinSep]
      rw [h2, run_line_cont vs (h1 vs (by simp)) [] _,
        ih (by simp) (fun x hx => h1 x (by simp [hx]))]
      simp

lemma esc_data (v : Option String) : (esc v).data = escC ((v.getD "").data) := by
  cases v <;> rfl

lemma mk_data_id (s : String) : String.mk s.data = s := by
  cases s; rfl

/-- Claim C1 (amended): provided the header is non-empty and its names need
no escaping (no comma, quote or newline), parsing the text produced by
`toCSV rows header` with a standard comma/quote-aware CSV parser yields the
header record followed by exactly one record per row whose fields are the
original row values in header order (absent values read back as the empty
string), including values containing commas, double quotes and embedded
newlines. -/
theorem toCSV_roundTrip (rows : List Row) (header : List String)
    (h1 : header ≠ []) (h2 : ∀ h ∈ header, hasSpecial h.data = false) :
    csvParse (toCSV rows header)
      = header :: rows.map (fun r => header.map (fun h => (getField r h).getD "")) := by
  have hB : ∀ vs ∈ (header.map String.data ::
      rows.map (fun r => header.map (fun h => ((getField r h).getD "").data))), vs ≠ [] := by
    intro vs hvs
    rcases List.mem_cons.mp hvs with h | h
    · subst h; simpa using h1
    · rcases List.mem_map.mp h with ⟨r, _, hr⟩
      rw [← hr]; simpa using h1
  have hA : (toCSV rows header).data
      = joinSep ['\n'] ((header.map String.data ::
          rows.map (fun r => header.map (fun h => ((getField r h).getD "").data))).map
            (fun vs => joinSep [','] (vs.map escC))) := by
    show joinSep ['\n'] ((csvLines rows header).map String.data) = _
    congr 1
    simp only [csvLines, List.map_cons, List.map_map]
    congr 1
    · show joinSep [','] (header.map String.data)
        = joinSep [','] (header.map (escC ∘ String.data))
      congr 1
      exact List.map_congr_left (fun h hh => by simp [Function.comp, escC, h2 h hh])
    · apply List.map_congr_left
      intro r _
      show joinSep [','] ((header.map (fun h => esc (getField r h))).map String.data) = _
      congr 1
      rw [List.map_map, List.map_map]
      apply List.map_congr_left
      intro h _
      exact esc_data _
  calc csvParse (toCSV rows header)
      = (csvRun false (toCSV rows header).data [] []).map
          (fun rec => rec.map (fun cs => String.mk cs)) := rfl
    _ = (header.map String.data ::
          rows.map (fun r => header.map (fun h => ((getField r h).getD "").data))).map
            (fun rec => rec.map (fun cs => String.mk cs)) := by
        rw [hA, run_table _ (by simp) hB]
    _ = header :: rows.map (fun r => header.map (fun h => (getField r h).getD "")) := by
        simp only [List.map_cons, List.map_map, Function.comp_def, mk_data_id, List.map_id]
        simp

/-- Witness for C1: a concrete round trip through a value containing a
comma, a quote and a newline. -/
theorem toCSV_roundTrip_witness :
    csvParse (toCSV [[("postcode", "a,b\nc\"d")]] ["postcode"])
      = [["postcode"], ["a,b\nc\"d"]] := by
  rw [toCSV_roundTrip [[("postcode", "a,b\nc\"d")]] ["postcode"] (by decide) (by decide)]
  decide

/-- Counterexample to C1 as stated: with a header name consisting of a
double quote, the quote opens a quoted section that swallows the newline,
so re-parsing does not reproduce the row value `x`. -/
theorem toCSV_roundTrip_cex :
    csvParse (toCSV [[("\"", "x")]] ["\""]) = [["\nx"]] ∧
    (csvParse (toCSV [[("\"", "x")]] ["\""])).drop 1 ≠ [["x"]] := by
  decide

/-- Claim C2: `toCSV` emits the raw comma-joined header first, escapes a
value (quote-wrap with internal quotes doubled) exactly when it contains a
comma, quote or newline, renders null/undefined as the empty string, and
joins all lines with single newlines and no trailing newline; in particular
the documented example holds. -/
theorem toCSV_format :
    toCSV [[("postcode", "AB1 2CD"), ("country", "England, GB")]] ["postcode", "country"]
      = "postcode,country\nAB1 2CD,\"England, GB\"" ∧
    esc none = "" ∧
    (∀ s : String, esc (some s)
      = if hasSpecial s.data then String.mk ('"' :: dq s.data ++ ['"']) else s) ∧
    (∀ (r : Row) (header : List String),
      toCSV [r] header
        = joinC header ++ "\n" ++ joinC (header.map (fun h => esc (getField r h)))) := by
  refine ⟨by decide, rfl, ?_, ?_⟩
  · intro s
    by_cases h : hasSpecial s.data
    · simp [esc, escC, h]
    · simp [esc, escC, h, mk_data_id]
  · intro r header
    show String.mk (joinSep ['\n'] ((csvLines [r] header).map String.data)) = _
    have h0 : (csvLines [r] header).map String.data
        = [(joinC header).data, (joinC (header.map (fun h => esc (getField r h)))).data] := by
      simp [csvLines]
    rw [h0]
    show String.mk ((joinC header).data ++ ['\n']
      ++ (joinC (header.map (fun h => esc (getField r h)))).data) = _
    have h2 : (joinC header ++ "\n" ++ joinC (header.map (fun h => esc (getField r h)))).data
        = (joinC header).data ++ ['\n']
          ++ (joinC (header.map (fun h => esc (getField r h)))).data := by
      simp [String.data_append]
    rw [← h2, mk_data_id]

/-! ### Lemmas about the normalizer -/

lemma mem_dedupAux : ∀ (l seen : List String) (x : String),
    x ∈ dedupAux l seen ↔ x ∈ l ∧ x ∉ seen := by
  intro l
  induction l with
  | nil => intro seen x; simp [dedupAux]
  | cons t ts ih =>
    intro seen x
    by_cases ht : t ∈ seen
    · rw [dedupAux, if_pos ht, ih]
      constructor
      · rintro ⟨hx, hs⟩; exact ⟨by simp [hx], hs⟩
      · rintro ⟨hx, hs⟩
        rcases List.mem_cons.mp hx with rfl | hx
        · exact absurd ht hs
        · exact ⟨hx, hs⟩
    · rw [dedupAux, if_neg ht]
      constructor
      · intro hx
        rcases List.mem_cons.mp hx with rfl | hx
        · exact ⟨by simp, ht⟩
        · have h2 := (ih (t :: seen) x).mp hx
          exact ⟨by simp [h2.1], fun hs => h2.2 (by simp [hs])⟩
      · rintro ⟨hx, hs⟩
        rcases List.mem_cons.mp hx with rfl | hx
        · simp
        · by_cases hxt : x = t
          · subst hxt; simp
          · exact List.mem_cons_of_mem _ ((ih (t :: seen) x).mpr
              ⟨hx, by simp [hxt, hs]⟩)

lemma nodup_dedupAux : ∀ (l seen : List String), (dedupAux l seen).Nodup := by
  intro l
  induction l with
  | nil => intro seen; simp [dedupAux]
  | cons t ts ih =>
    intro seen
    by_cases ht : t ∈ seen
    · rw [dedupAux, if_pos ht]; exact ih seen
    · rw [dedupAux, if_neg ht, List.nodup_cons]
      exact ⟨fun hmem => ((mem_dedupAux ts (t :: seen) t).mp hmem).2 (by simp),
        ih (t :: seen)⟩

lemma pairwise_dedupAux : ∀ (l seen : List String),
    (dedupAux l seen).Pairwise (fun a b => l.indexOf a < l.indexOf b) := by
  intro l
  induction l with
  | nil => intro seen; simp [dedupAux]
  | cons t ts ih =>
    intro seen
    by_cases ht : t ∈ seen
    · rw [dedupAux, if_pos ht]
      refine (ih seen).imp_of_mem ?_
      intro a b ha hb hab
      have ha' := (mem_dedupAux ts seen a).mp ha
      have hb' := (mem_dedupAux ts seen b).mp hb
      have hat : t ≠ a := by rintro rfl; exact ha'.2 ht
      have hbt : t ≠ b := by rintro rfl; exact hb'.2 ht
      rw [List.indexOf_cons_ne _ hat, List.indexOf_cons_ne _ hbt]
      omega
    · rw [dedupAux, if_neg ht, List.pairwise_cons]
      constructor
      · intro b hb
        have hb' := (mem_dedupAux ts (t :: seen) b).mp hb
        have hbt : t ≠ b := by rintro rfl; exact hb'.2 (by simp)
        rw [List.indexOf_cons_self, List.indexOf_cons_ne _ hbt]
        omega
      · refine (ih (t :: seen)).imp_of_mem ?_
        intro a b ha hb hab
        have ha' := (mem_dedupAux ts (t :: seen) a).mp ha
        have hb' := (mem_dedupAux ts (t :: seen) b).mp hb
        have hat : t ≠ a := by rintro rfl; exact ha'.2 (by simp)
        have hbt : t ≠ b := by rintro rfl; exact hb'.2 (by simp)
        rw [List.indexOf_cons_ne _ hat, List.indexOf_cons_ne _ hbt]
        omega

lemma strLen (s : String) : s.length = s.data.length := rfl

lemma compact_chars (s : String) : ∀ c ∈ (compactStr s).data, keepAZ09 c = true := by
  intro c hc
  have h1 : c ∈ (s.data.map Char.toUpper).filter keepAZ09 := hc
  exact (List.mem_filter.mp h1).2

lemma space_not_in_compact (s : String) : ' ' ∉ (compactStr s).data := by
  intro h
  have := compact_chars s ' ' h
  simp [keepAZ09, regAD, regL, regD] at this

lemma outwardOK_of_len_ge5 (l : List Char) (h : 5 ≤ l.length) : outwardOK l = false := by
  match l with
  | a :: b :: c :: d :: e :: t => rfl

/-- Claim C3: the output of `parsePostcodes` is duplicate-free, consists of
exactly the normalized tokens of the input, lists them in first-occurrence
order relative to the input token stream, and the documented example holds. -/
theorem parsePostcodes_dedup_order :
    (∀ raw : String, (parsePostcodes raw).Nodup) ∧
    (∀ (raw s : String), s ∈ parsePostcodes raw ↔ s ∈ tokensOf raw) ∧
    (∀ raw : String, (parsePostcodes raw).Pairwise
      (fun a b => (tokensOf raw).indexOf a < (tokensOf raw).indexOf b)) ∧
    parsePostcodes "SW1A 1AA, sw1a1aa\nSW1A  1AA" = ["SW1A 1AA"] := by
  refine ⟨fun raw => nodup_dedupAux _ _, fun raw s => ?_,
    fun raw => pairwise_dedupAux _ _, by decide⟩
  rw [parsePostcodes, mem_dedupAux]
  simp

/-- Claim C4: a token whose compacted form is shorter than 5 or longer
than 8 characters normalizes to the empty string and is silently excluded
from the output; in particular `parsePostcodes "AB" = []`. -/
theorem normalize_length_gate :
    (∀ s : String,
      (compactStr s).length < 5 ∨ 8 < (compactStr s).length → normalize s = "") ∧
    (∀ raw : String, "" ∉ parsePostcodes raw) ∧
    parsePostcodes "AB" = [] := by
  refine ⟨?_, ?_, by decide⟩
  · intro s h
    rw [normalize, normCore, if_pos h]
  · intro raw hmem
    have h1 := ((mem_dedupAux _ _ _).mp hmem).1
    have h2 := (List.mem_filter.mp h1).2
    simp at h2

/-- Witness for C4: the compacted form of `"AB"` has length 2, so the
token normalizes to the empty string. -/
theorem normalize_length_gate_witness : normalize "AB" = "" :=
  normalize_length_gate.1 "AB" (by decide)

/-- Claim C5: for a length-valid compacted token, `normalize` inserts
exactly one space before the final three characters when the compacted
string matches the full postal-code shape, and otherwise (including every
8-character compacted token, which the shape can never match) returns the
compacted token unchanged and unspaced. -/
theorem normalize_spacing (s : String)
    (h5 : 5 ≤ (compactStr s).length) (h8 : (compactStr s).length ≤ 8) :
    (shapeOK (compactStr s).data = true →
      (normalize s).data
        = (compactStr s).data.take ((compactStr s).data.length - 3)
          ++ ' ' :: (compactStr s).data.drop ((compactStr s).data.length - 3) ∧
      (normalize s).data.count ' ' = 1) ∧
    (shapeOK (compactStr s).data = false → normalize s = compactStr s) ∧
    ((compactStr s).length = 8 →
      normalize s = compactStr s ∧ (normalize s).data.count ' ' = 0) := by
  have hcore : normalize s = String.mk (addSpace (compactStr s).data) := by
    rw [normalize, normCore, if_neg (by omega)]
  have hnospace := space_not_in_compact s
  have hcnt : (compactStr s).data.count ' ' = 0 := List.count_eq_zero.mpr hnospace
  have hflat : shapeOK (compactStr s).data = false → normalize s = compactStr s := by
    intro hsh
    rw [hcore, addSpace, if_neg (by simp [hsh]), mk_data_id]
  refine ⟨?_, hflat, ?_⟩
  · intro hsh
    have hdata : (normalize s).data
        = (compactStr s).data.take ((compactStr s).data.length - 3)
          ++ ' ' :: (compactStr s).data.drop ((compactStr s).data.length - 3) := by
      rw [hcore, addSpace, if_pos hsh]
    refine ⟨hdata, ?_⟩
    rw [hdata]
    have ht : ' ' ∉ (compactStr s).data.take ((compactStr s).data.length - 3) :=
      fun h => hnospace (List.take_subset _ _ h)
    have hd : ' ' ∉ (compactStr s).data.drop ((compactStr s).data.length - 3) :=
      fun h => hnospace (List.drop_subset _ _ h)
    rw [List.count_append, List.count_cons]
    rw [List.count_eq_zero.mpr ht, List.count_eq_zero.mpr hd]
    simp
  · intro hlen
    have hdlen : (compactStr s).data.length = 8 := by rw [← strLen]; exact hlen
    have hsh : shapeOK (compactStr s).data = false := by
      rw [shapeOK, outwardOK_of_len_ge5]
      · simp
      · rw [List.length_take]
        omega
    exact ⟨hflat hsh, by rw [hflat hsh]; exact hcnt⟩

/-- Witness for C5: `"ab12cd"` compacts to a 6-character token matching
the shape, and `normalize` puts exactly one space before the inward part. -/
theorem normalize_spacing_witness :
    (normalize "ab12cd").data.count ' ' = 1 ∧ normalize "ABCDEFGH" = compactStr "ABCDEFGH" :=
  ⟨((normalize_spacing "ab12cd" (by decide) (by decide)).1 (by decide)).2,
    ((normalize_spacing "ABCDEFGH" (by decide) (by decide)).2.2 (by decide)).1⟩

/-! ### Lemmas about row construction and the batch enricher -/

lemma find_map_self (l : List String) (ρ : String → String) (f : String) (hf : f ∈ l) :
    (l.map (fun g => (g, ρ g))).find? (fun p => p.1 == f) = some (f, ρ f) := by
  induction l with
  | nil => simp at hf
  | cons g t ih =>
    by_cases hg : g = f
    · subst hg
      rw [List.map_cons, List.find?_cons_of_pos _ (by simp)]
    · rw [List.map_cons, List.find?_cons_of_neg _ (by simp [hg])]
      exact ih (by rcases List.mem_cons.mp hf with h | h; exact absurd h.symm hg; exact h)

lemma getField_mkRow_postcode (item : APIItem) :
    getField (mkRow item) "postcode" = some (pcOf item) := by
  rw [getField, mkRow, List.find?_cons_of_pos _ (by simp)]
  rfl

lemma fields_ne_postcode : ∀ f ∈ FIELDS, f ≠ "postcode" := by decide

lemma getField_mkRow_field (item : APIItem) (f : String) (hf : f ∈ FIELDS) :
    getField (mkRow item) f = some (fieldOf item f) := by
  rw [getField, mkRow,
    List.find?_cons_of_neg _ (by simp; exact fun h => fields_ne_postcode f hf h.symm),
    find_map_self FIELDS (fieldOf item) f hf]
  rfl

lemma mkRow_keys (item : APIItem) :
    (mkRow item).map Prod.fst = "postcode" :: FIELDS := by
  simp [mkRow, List.map_map, Function.comp_def]

lemma getField_isSome (r : Row) (k : String) :
    (getField r k).isSome = true ↔ k ∈ r.map Prod.fst := by
  rw [getField]
  rcases hfind : List.find? (fun p => p.1 == k) r with _ | p
  · rw [hfind]
    simp only [Option.map_none', Option.isSome_none]
    constructor
    · intro h; exact absurd h (by simp)
    · intro hk
      rcases List.mem_map.mp hk with ⟨q, hq, he⟩
      have h2 : (List.find? (fun p => p.1 == k) r).isSome :=
        List.find?_isSome.mpr ⟨q, hq, by simp [he]⟩
      rw [hfind] at h2
      simp at h2
  · rw [hfind]
    simp only [Option.map_some', Option.isSome_some, true_iff]
    have h1 := List.find?_some hfind
    have h2 := List.mem_of_find?_eq_some hfind
    have h3 : p.1 = k := by simpa using h1
    exact h3 ▸ List.mem_map_of_mem Prod.fst h2

lemma pcOf_no_match (item : APIItem) (h : item.result = none) :
    pcOf item = jsUpper (item.query.getD "") := by
  simp [pcOf, h]

lemma pcOf_match (item : APIItem) (res : ResObj) (p : String)
    (h : item.result = some res) (hp : getKey res "postcode" = some (some p))
    (hne : p ≠ "") : pcOf item = jsUpper p := by
  simp [pcOf, h, hp, hne]

lemma pcOf_fallback (item : APIItem) (res : ResObj) (h : item.result = some res)
    (hp : getKey res "postcode" = none ∨ getKey res "postcode" = some none ∨
      getKey res "postcode" = some (some "")) :
    pcOf item = jsUpper (item.query.getD "") := by
  rcases hp with hp | hp | hp <;> simp [pcOf, h, hp]

lemma fieldOf_no_match (item : APIItem) (f : String) (h : item.result = none) :
    fieldOf item f = "" := by
  simp [fieldOf, h]

lemma fieldOf_present (item : APIItem) (res : ResObj) (f v : String)
    (h : item.result = some res) (hv : getKey res f = some (some v)) :
    fieldOf item f = v := by
  simp [fieldOf, h, hv]

lemma fieldOf_default (item : APIItem) (res : ResObj) (f : String)
    (h : item.result = some res)
    (hv : getKey res f = none ∨ getKey res f = some none) :
    fieldOf item f = "" := by
  rcases hv with hv | hv <;> simp [fieldOf, h, hv]

lemma attempt3_all_fail (o : Nat → Option (List APIItem))
    (h0 : o 0 = none) (h1 : o 1 = none) (h2 : o 2 = none) :
    attempt3 o = (none, 750 + 1500 + 2250) := by
  simp [attempt3, h0, h1, h2]

lemma chunkList_single (pcs : List String) (h1 : pcs ≠ []) (h2 : pcs.length ≤ 100) :
    chunkList pcs = [pcs] := by
  rcases pcs with _ | ⟨x, xs⟩
  · exact absurd rfl h1
  · have hlen : xs.length ≤ 99 := by
      rw [List.length_cons] at h2; omega
    simp [chunkList, List.take_of_length_le hlen, List.drop_eq_nil_of_le hlen]

lemma enrichChunks_fail : ∀ (cs : List (List String)) (ci : Nat) (oracle : Oracle),
    (∃ i, i < cs.length ∧ ∀ a, a < 3 → oracle (ci + i) a = none) →
    ∃ e, (enrichChunks oracle ci cs).1 = Except.error e := by
  intro cs
  induction cs with
  | nil =>
    rintro ci oracle ⟨i, hi, _⟩
    simp at hi
  | cons c rest ih =>
    rintro ci oracle ⟨i, hi, hfail⟩
    rcases h1 : attempt3 (oracle ci) with ⟨o, t1⟩
    cases o with
    | none =>
      exact ⟨"Failed to fetch after retries", by simp [enrichChunks, h1]⟩
    | some items =>
      have hi0 : i ≠ 0 := by
        rintro rfl
        have hall := attempt3_all_fail (oracle ci)
          (by simpa using hfail 0 (by omega))
          (by simpa using hfail 1 (by omega))
          (by simpa using hfail 2 (by omega))
        rw [h1] at hall
        simp at hall
      obtain ⟨j, rfl⟩ : ∃ j, i = j + 1 := ⟨i - 1, by omega⟩
      obtain ⟨e, he⟩ := ih (ci + 1) oracle
        ⟨j, by simpa using hi, fun a ha => by
          have h3 : ci + 1 + j = ci + (j + 1) := by omega
          rw [h3]; exact hfail a ha⟩
      refine ⟨e, ?_⟩
      simp only [enrichChunks, h1]
      rcases h2 : enrichChunks oracle (ci + 1) rest with ⟨er, t2⟩
      cases er with
      | ok rows' =>
        rw [h2] at he
        simp at he
      | error e' =>
        rw [h2] at he
        simp at he
        simp [he]

lemma enrichChunks_ok_mem : ∀ (cs : List (List String)) (ci : Nat) (oracle : Oracle)
    (rows : List Row) (t : Nat),
    enrichChunks oracle ci cs = (Except.ok rows, t) →
    ∀ row ∈ rows, ∃ item, row = mkRow item := by
  intro cs
  induction cs with
  | nil =>
    intro ci oracle rows t h row hrow
    simp [enrichChunks] at h
    rw [h.1] at hrow
    simp at hrow
  | cons c rest ih =>
    intro ci oracle rows t h row hrow
    rcases h1 : attempt3 (oracle ci) with ⟨o, t1⟩
    cases o with
    | none => simp [enrichChunks, h1] at h
    | some items =>
      simp only [enrichChunks, h1] at h
      rcases h2 : enrichChunks oracle (ci + 1) rest with ⟨er, t2⟩
      cases er with
      | ok rows' =>
        rw [h2] at h
        simp at h
        rw [← h.1] at hrow
        rcases List.mem_append.mp hrow with hm | hm
        · rcases List.mem_map.mp hm with ⟨item, _, hitem⟩
          exact ⟨item, hitem.symm⟩
        · exact ih (ci + 1) oracle rows' t2 (by rw [h2]) row hm
      | error e' =>
        rw [h2] at h
        simp at h

lemma runClick_on_error (oracle : Oracle) (inputText : String)
    (hne : parsePostcodes inputText ≠ [])
    (he : ∃ e, (enrich oracle (parsePostcodes inputText)).1 = Except.error e) :
    runClick oracle inputText
      = ⟨"Error enriching data. Please try again.", false, [], false, none⟩ := by
  obtain ⟨e, he⟩ := he
  rw [runClick]
  simp only [if_neg hne, he]

/-- Claim C6: each chunk is attempted at most 3 times (the outcome depends
only on the first three oracle answers); the backoff slept after the
failures is 750ms times the attempt number, so a batch that fails twice and
then succeeds yields the successful result after 750 + 1500 ms of backoff;
a chunk whose three attempts all fail makes `enrich` raise a fatal error
with no rows at all, and the controller then shows the generic error status
with no rows rendered. -/
theorem enrich_retry_policy :
    (∀ o o' : Nat → Option (List APIItem),
      (∀ a, a < 3 → o a = o' a) → attempt3 o = attempt3 o') ∧
    (∀ (o : Nat → Option (List APIItem)) r, o 0 = none → o 1 = none → o 2 = some r →
      attempt3 o = (some r, 750 + 1500)) ∧
    (∀ o : Nat → Option (List APIItem), o 0 = none → o 1 = none → o 2 = none →
      (attempt3 o).1 = none) ∧
    (∀ (oracle : Oracle) (pcs : List String) r, pcs ≠ [] → pcs.length ≤ 100 →
      oracle 0 0 = none → oracle 0 1 = none → oracle 0 2 = some r →
      enrich oracle pcs = (Except.ok (r.map mkRow), 750 + 1500)) ∧
    (∀ (oracle : Oracle) (pcs : List String),
      (∃ i, i < (chunkList pcs).length ∧ ∀ a, a < 3 → oracle i a = none) →
      ∃ e, (enrich oracle pcs).1 = Except.error e) ∧
    (∀ (oracle : Oracle) (inputText : String), parsePostcodes inputText ≠ [] →
      (∃ e, (enrich oracle (parsePostcodes inputText)).1 = Except.error e) →
      runClick oracle inputText
        = ⟨"Error enriching data. Please try again.", false, [], false, none⟩) := by
  refine ⟨?_, ?_, ?_, ?_, ?_, runClick_on_error⟩
  · intro o o' h
    simp only [attempt3, h 0 (by omega), h 1 (by omega), h 2 (by omega)]
  · intro o r h0 h1 h2
    simp [attempt3, h0, h1, h2]
  · intro o h0 h1 h2
    rw [attempt3_all_fail o h0 h1 h2]
  · intro oracle pcs r h1 h2 ha hb hc
    rw [enrich, chunkList_single pcs h1 h2]
    have hat : attempt3 (oracle 0) = (some r, 750 + 1500) := by
      simp [attempt3, ha, hb, hc]
    simp [enrichChunks, hat]
  · intro oracle pcs hex
    have h := enrichChunks_fail (chunkList pcs) 0 oracle
      (by obtain ⟨i, hi, hf⟩ := hex; exact ⟨i, hi, fun a ha => by simpa using hf a ha⟩)
    exact h

/-- Witness for C6: a batch oracle failing twice then succeeding returns
the mapped rows after 750 + 1500 ms of backoff. -/
theorem enrich_retry_policy_witness :
    enrich (fun _ a => if a = 2 then some [APIItem.mk (some "sw1a1aa") none] else none)
        ["SW1A 1AA"]
      = (Except.ok [mkRow (APIItem.mk (some "sw1a1aa") none)], 750 + 1500) :=
  enrich_retry_policy.2.2.2.1 _ ["SW1A 1AA"] [APIItem.mk (some "sw1a1aa") none]
    (by decide) (by decide) rfl rfl rfl

/-- Claim C7 (amended): every item of a fetched chunk yields exactly one
row; the row's postcode is the result's returned postcode when that is
present and non-empty, and otherwise (no match, or a missing, null or
empty postcode property) the original query string (empty when absent),
uppercased; each of the 12 fields is taken from the result object and
defaults to the empty string when the result or the field value is absent
or null. -/
theorem enrich_row_mapping :
    (∀ items : List APIItem, (items.map mkRow).length = items.length) ∧
    (∀ item : APIItem, item.result = none →
      getField (mkRow item) "postcode" = some (jsUpper (item.query.getD ""))) ∧
    (∀ (item : APIItem) (res : ResObj) (p : String), item.result = some res →
      getKey res "postcode" = some (some p) → p ≠ "" →
      getField (mkRow item) "postcode" = some (jsUpper p)) ∧
    (∀ (item : APIItem) (res : ResObj), item.result = some res →
      (getKey res "postcode" = none ∨ getKey res "postcode" = some none ∨
        getKey res "postcode" = some (some "")) →
      getField (mkRow item) "postcode" = some (jsUpper (item.query.getD ""))) ∧
    (∀ (item : APIItem) (f : String), f ∈ FIELDS → item.result = none →
      getField (mkRow item) f = some "") ∧
    (∀ (item : APIItem) (res : ResObj) (f v : String), f ∈ FIELDS →
      item.result = some res → getKey res f = some (some v) →
      getField (mkRow item) f = some v) ∧
    (∀ (item : APIItem) (res : ResObj) (f : String), f ∈ FIELDS →
      item.result = some res → (getKey res f = none ∨ getKey res f = some none) →
      getField (mkRow item) f = some "") := by
  refine ⟨fun items => by simp, ?_, ?_, ?_, ?_, ?_, ?_⟩
  · intro item h
    rw [getField_mkRow_postcode, pcOf_no_match item h]
  · intro item res p h hp hne
    rw [getField_mkRow_postcode, pcOf_match item res p h hp hne]
  · intro item res h hp
    rw [getField_mkRow_postcode, pcOf_fallback item res h hp]
  · intro item f hf h
    rw [getField_mkRow_field item f hf, fieldOf_no_match item f h]
  · intro item res f v hf h hv
    rw [getField_mkRow_field item f hf, fieldOf_present item res f v h hv]
  · intro item res f hf h hv
    rw [getField_mkRow_field item f hf, fieldOf_default item res f h hv]

/-- Witness for C7: an item with no match still yields a row whose
`country` field is the empty string. -/
theorem enrich_row_mapping_witness :
    getField (mkRow (APIItem.mk (some "q") none)) "country" = some "" :=
  enrich_row_mapping.2.2.2.2.1 (APIItem.mk (some "q") none) "country" (by decide) rfl

/-- Counterexample to C7 as stated: when the API returns a match whose
`postcode` property is the empty string, the code falls back to the query
string (`||` treats the empty string as falsy), so the row's postcode is
not the result's returned postcode. -/
theorem enrich_row_mapping_cex :
    getKey [("postcode", some "")] "postcode" = some (some "") ∧
    getField (mkRow (APIItem.mk (some "ab1 2cd") (some [("postcode", some "")])))
        "postcode" = some "AB1 2CD" ∧
    getField (mkRow (APIItem.mk (some "ab1 2cd") (some [("postcode", some "")])))
        "postcode" ≠ some (jsUpper "") := by
  refine ⟨rfl, ?_, ?_⟩ <;> decide

/-- Claim C8: `renderTable` displays at most the first 500 rows, one data
row per entry in order with missing field values rendered as empty cells
(hiding the view entirely when there are no rows), while the `lines` array
serialized by `toCSV` always contains one line per row plus the header,
with no cap. -/
theorem renderTable_cap :
    (∀ (rows : List Row) (header : List String),
      (renderBody rows header).length = min rows.length 500) ∧
    (∀ (rows : List Row) (header : List String),
      renderBody rows header
        = (rows.take 500).map (fun r => header.map (fun h => (getField r h).getD ""))) ∧
    (∀ (rows : List Row) (header : List String),
      rows = [] → renderTable rows header = none) ∧
    (∀ (rows : List Row) (header : List String),
      rows ≠ [] → renderTable rows header = some (header, renderBody rows header)) ∧
    (∀ (rows : List Row) (header : List String),
      (csvLines rows header).length = rows.length + 1) := by
  have hbody : ∀ (rows : List Row) (header : List String),
      renderBody rows header
        = (rows.take 500).map (fun r => header.map (fun h => (getField r h).getD "")) := by
    intro rows header
    by_cases h : rows = []
    · subst h; simp [renderBody, renderTable]
    · simp [renderBody, renderTable, h]
  refine ⟨?_, hbody, ?_, ?_, ?_⟩
  · intro rows header
    rw [hbody, List.length_map, List.length_take]
    omega
  · intro rows header h
    simp [renderTable, h]
  · intro rows header h
    simp [renderTable, renderBody, h]
  · intro rows header
    simp [csvLines]

/-- Witness for C8: the empty row list hides the results view, and a
non-empty one produces the rendered grid. -/
theorem renderTable_cap_witness :
    renderTable ([] : List Row) header0 = none ∧
    renderTable [[("postcode", "X")]] header0
      = some (header0, renderBody [[("postcode", "X")]] header0) :=
  ⟨renderTable_cap.2.2.1 [] header0 rfl,
    renderTable_cap.2.2.2.1 [[("postcode", "X")]] header0 (by decide)⟩

/-- Claim C9: every row produced by a successful `enrich` is built by
`mkRow`; such a row always has exactly the key `postcode` followed by the
12 fixed fields (including latitude and longitude) in order, a key is
present iff it is one of these names, and missing or null API values are
stored as the empty string. -/
theorem enriched_row_invariant :
    FIELDS.length = 12 ∧ "latitude" ∈ FIELDS ∧ "longitude" ∈ FIELDS ∧
    (∀ item : APIItem, (mkRow item).map Prod.fst = "postcode" :: FIELDS) ∧
    (∀ (item : APIItem) (k : String),
      (getField (mkRow item) k).isSome = true ↔ k ∈ "postcode" :: FIELDS) ∧
    (∀ (oracle : Oracle) (pcs : List String) (rows : List Row) (t : Nat),
      enrich oracle pcs = (Except.ok rows, t) →
      ∀ row ∈ rows, ∃ item, row = mkRow item) ∧
    (∀ (item : APIItem) (f : String), f ∈ FIELDS →
      (item.result = none ∨ (∃ res, item.result = some res ∧
        (getKey res f = none ∨ getKey res f = some none))) →
      getField (mkRow item) f = some "") := by
  refine ⟨by decide, by decide, by decide, mkRow_keys, ?_, ?_, ?_⟩
  · intro item k
    rw [getField_isSome, mkRow_keys]
  · intro oracle pcs rows t h
    exact enrichChunks_ok_mem (chunkList pcs) 0 oracle rows t h
  · intro item f hf hcase
    rw [getField_mkRow_field item f hf]
    rcases hcase with h | ⟨res, h, hv⟩
    · rw [fieldOf_no_match item f h]
    · rw [fieldOf_default item res f h hv]

/-- Witness for C9: a row built from an unmatched item stores the empty
string in `latitude`. -/
theorem enriched_row_invariant_witness :
    getField (mkRow (APIItem.mk none none)) "latitude" = some "" :=
  enriched_row_invariant.2.2.2.2.2.2 (APIItem.mk none none) "latitude"
    (by decide) (Or.inl rfl)

/-! ### Lemmas for idempotence of the normalizer -/

lemma str_ext {a b : String} (h : a.data = b.data) : a = b := by
  cases a; cases b; exact congrArg String.mk h

lemma toUpper_fixed (c : Char) (h : keepAZ09 c = true) : c.toUpper = c := by
  have h' : ('A' ≤ c ∧ c ≤ 'Z') ∨ ('0' ≤ c ∧ c ≤ '9') := by
    simpa [keepAZ09, regAD, regL, regD] using h
  rcases h' with ⟨h1, h2⟩ | ⟨h1, h2⟩
  · rw [Char.le_def, UInt32.le_def, BitVec.le_def] at h1 h2
    have e1 : 'A'.val.toBitVec.toNat = 65 := rfl
    have e2 : 'Z'.val.toBitVec.toNat = 90 := rfl
    have e3 : c.toNat = c.val.toBitVec.toNat := rfl
    simp only [Char.toUpper]
    rw [if_neg (by omega)]
  · rw [Char.le_def, UInt32.le_def, BitVec.le_def] at h1 h2
    have e1 : '0'.val.toBitVec.toNat = 48 := rfl
    have e2 : '9'.val.toBitVec.toNat = 57 := rfl
    have e3 : c.toNat = c.val.toBitVec.toNat := rfl
    simp only [Char.toUpper]
    rw [if_neg (by omega)]

lemma normalize_chars (s : String) : ∀ c ∈ (normalize s).data,
    keepAZ09 c = true ∨ c = ' ' := by
  intro c hc
  by_cases hlen : (compactStr s).length < 5 ∨ 8 < (compactStr s).length
  · rw [normalize, normCore, if_pos hlen] at hc
    simp at hc
  · rw [normalize, normCore, if_neg hlen] at hc
    have hc' : c ∈ addSpace (compactStr s).data := hc
    rw [addSpace] at hc'
    by_cases hsh : shapeOK (compactStr s).data
    · rw [if_pos hsh] at hc'
      rcases List.mem_append.mp hc' with h | h
      · exact Or.inl (compact_chars s c (List.take_subset _ _ h))
      · rcases List.mem_cons.mp h with rfl | h
        · exact Or.inr rfl
        · exact Or.inl (compact_chars s c (List.drop_subset _ _ h))
    · rw [if_neg hsh] at hc'
      exact Or.inl (compact_chars s c hc')

lemma filter_map_dropWhile (p q : Char → Bool) (f : Char → Char)
    (h : ∀ c, q c = true → p (f c) = false) :
    ∀ l : List Char, ((l.dropWhile q).map f).filter p = (l.map f).filter p := by
  intro l
  induction l with
  | nil => simp
  | cons c t ih =>
    by_cases hq : q c = true
    · rw [List.dropWhile_cons, if_pos hq, ih, List.map_cons, List.filter_cons,
        if_neg (by simp [h c hq])]
    · rw [List.dropWhile_cons, if_neg hq]

lemma ws_not_keep (c : Char) (h : isWS c = true) : keepAZ09 c.toUpper = false := by
  simp only [isWS, Bool.or_eq_true, decide_eq_true_eq] at h
  rcases h with ((((rfl | rfl) | rfl) | rfl) | rfl) | rfl <;> decide

lemma compact_trim (s : String) : compactStr (trimStr s) = compactStr s := by
  apply str_ext
  show ((trimData s.data).map Char.toUpper).filter keepAZ09
    = (s.data.map Char.toUpper).filter keepAZ09
  rw [trimData]
  rw [List.map_reverse, List.filter_reverse]
  rw [filter_map_dropWhile keepAZ09 isWS Char.toUpper ws_not_keep]
  rw [List.map_reverse, List.filter_reverse, List.reverse_reverse]
  rw [filter_map_dropWhile keepAZ09 isWS Char.toUpper ws_not_keep]

lemma compact_normalize (s : String) (hne : normalize s ≠ "") :
    compactStr (normalize s) = compactStr s := by
  by_cases hlen : (compactStr s).length < 5 ∨ 8 < (compactStr s).length
  · rw [normalize, normCore, if_pos hlen] at hne
    exact absurd rfl hne
  · have hcore : (normalize s).data = addSpace (compactStr s).data := by
      rw [normalize, normCore, if_neg hlen]
    apply str_ext
    show ((normalize s).data.map Char.toUpper).filter keepAZ09 = (compactStr s).data
    have hupper : (normalize s).data.map Char.toUpper = (normalize s).data := by
      have hfix : ∀ c ∈ (normalize s).data, c.toUpper = c := by
        intro c hc
        rcases normalize_chars s c hc with hk | rfl
        · exact toUpper_fixed c hk
        · decide
      rw [List.map_congr_left hfix, List.map_id']
    rw [hupper, hcore, addSpace]
    by_cases hsh : shapeOK (compactStr s).data
    · rw [if_pos hsh, List.filter_append, List.filter_cons,
        if_neg (by decide)]
      rw [List.filter_eq_self.mpr (fun c hc => compact_chars s c (List.take_subset _ _ hc)),
        List.filter_eq_self.mpr (fun c hc => compact_chars s c (List.drop_subset _ _ hc)),
        List.take_append_drop]
    · rw [if_neg hsh]
      exact List.filter_eq_self.mpr (fun c hc => compact_chars s c hc)

lemma normalize_idem (s : String) (hne : normalize s ≠ "") :
    normalize (normalize s) = normalize s := by
  show normCore (compactStr (normalize s)) = normalize s
  rw [compact_normalize s hne]
  rfl

lemma normalize_trim_eq (x : String) : normalize (trimStr x) = normalize x := by
  show normCore (compactStr (trimStr x)) = normCore (compactStr x)
  rw [compact_trim]

lemma mem_parse_fixed (raw x : String) (hx : x ∈ parsePostcodes raw) :
    normalize (trimStr x) = x ∧ x ≠ "" := by
  have h1 : x ∈ tokensOf raw := ((mem_dedupAux _ _ _).mp hx).1
  have h2 := List.mem_filter.mp h1
  have hxne : x ≠ "" := by simpa using h2.2
  rcases List.mem_map.mp h2.1 with ⟨cs, _, hcs⟩
  refine ⟨?_, hxne⟩
  have hne2 : normalize (trimStr (String.mk cs)) ≠ "" := by rw [hcs]; exact hxne
  calc normalize (trimStr x) = normalize x := normalize_trim_eq x
    _ = normalize (normalize (trimStr (String.mk cs))) := by rw [hcs]
    _ = normalize (trimStr (String.mk cs)) := normalize_idem _ hne2
    _ = x := hcs

lemma keep_or_space_not_sep (c : Char) (h : keepAZ09 c = true ∨ c = ' ') :
    c ≠ ',' ∧ c ≠ '\n' ∧ c ≠ '\r' := by
  rcases h with h | rfl
  · refine ⟨?_, ?_, ?_⟩ <;> rintro rfl <;> exact absurd h (by decide)
  · exact ⟨by decide, by decide, by decide⟩

lemma parse_out_chars (raw x : String) (hx : x ∈ parsePostcodes raw) :
    ∀ c ∈ x.data, c ≠ ',' ∧ c ≠ '\n' ∧ c ≠ '\r' := by
  have hfix := (mem_parse_fixed raw x hx).1
  intro c hc
  rw [← hfix] at hc
  exact keep_or_space_not_sep c (normalize_chars (trimStr x) c hc)

lemma mem_joinSep (sep : List Char) : ∀ (l : List (List Char)) (c : Char),
    c ∈ joinSep sep l → c ∈ sep ∨ ∃ x ∈ l, c ∈ x := by
  intro l
  induction l with
  | nil => intro c hc; simp [joinSep] at hc
  | cons x tail ih =>
    intro c hc
    cases tail with
    | nil => exact Or.inr ⟨x, by simp, hc⟩
    | cons y t =>
      rw [joinSep] at hc
      rcases List.mem_append.mp hc with h | h
      · rcases List.mem_append.mp h with h | h
        · exact Or.inr ⟨x, by simp, h⟩
        · exact Or.inl h
      · rcases ih c h with h | ⟨z, hz, hcz⟩
        · exact Or.inl h
        · exact Or.inr ⟨z, by simp [hz], hcz⟩

lemma replaceCommas_id (l : List Char) (h : ∀ c ∈ l, c ≠ ',') :
    replaceCommas l = l := by
  rw [replaceCommas,
    List.map_congr_left (fun c hc => if_neg (h c hc) : ∀ c ∈ l, (if c = ',' then '\n' else c) = c),
    List.map_id']

lemma splitRN_single (x : List Char) (h : ∀ c ∈ x, c ≠ '\n' ∧ c ≠ '\r') :
    splitRN x = [x] := by
  induction x with
  | nil => rfl
  | cons c t ih =>
    have hc := h c (by simp)
    have iht := ih (fun d hd => h d (by simp [hd]))
    cases t with
    | nil => simp [splitRN, hc.1, hc.2]
    | cons d t' =>
      rw [splitRN, if_neg (by simp [hc.1]), if_neg (by simp [hc.2]), iht]
      rfl

lemma splitRN_nl (z : List Char) : splitRN ('\n' :: z) = [] :: splitRN z := by
  cases z <;> rfl

lemma splitRN_cons (c : Char) (hc1 : c ≠ '\n') (hc2 : c ≠ '\r') (ys : List Char) :
    splitRN (c :: ys) = consHead c (splitRN ys) := by
  cases ys with
  | nil => simp [splitRN, hc1, hc2, consHead]
  | cons d t => rw [splitRN, if_neg (by simp [hc1]), if_neg (by simp [hc2])]

lemma splitRN_prepend (x : List Char) (hx : ∀ c ∈ x, c ≠ '\n' ∧ c ≠ '\r') :
    ∀ z, splitRN (x ++ '\n' :: z) = x :: splitRN z := by
  induction x with
  | nil => intro z; exact splitRN_nl z
  | cons c t ih =>
    intro z
    have hc := hx c (by simp)
    rw [List.cons_append, splitRN_cons c hc.1 hc.2,
      ih (fun d hd => hx d (by simp [hd])) z]
    rfl

lemma splitRN_joinSep : ∀ (l : List (List Char)), l ≠ [] →
    (∀ x ∈ l, ∀ c ∈ x, c ≠ '\n' ∧ c ≠ '\r') →
    splitRN (joinSep ['\n'] l) = l := by
  intro l
  induction l with
  | nil => intro h; exact absurd rfl h
  | cons x tail ih =>
    intro _ h
    cases tail with
    | nil =>
      show splitRN (joinSep ['\n'] [x]) = [x]
      rw [joinSep]
      exact splitRN_single x (h x (by simp))
    | cons y t =>
      have h0 : joinSep ['\n'] (x :: y :: t) = x ++ '\n' :: joinSep ['\n'] (y :: t) := by
        rw [joinSep]; simp
      rw [h0, splitRN_prepend x (h x (by simp)),
        ih (by simp) (fun z hz => h z (by simp [hz]))]

lemma dedupAux_nodup_id : ∀ (l seen : List String), l.Nodup →
    (∀ x ∈ l, x ∉ seen) → dedupAux l seen = l := by
  intro l
  induction l with
  | nil => intro seen _ _; rfl
  | cons t ts ih =>
    intro seen hnd hdisj
    rw [dedupAux, if_neg (hdisj t (by simp))]
    congr 1
    apply ih (t :: seen) (List.nodup_cons.mp hnd).2
    intro x hx hmem
    rcases List.mem_cons.mp hmem with rfl | hmem'
    · exact (List.nodup_cons.mp hnd).1 hx
    · exact hdisj x (by simp [hx]) hmem'

/-- Claim C10: `parsePostcodes` is idempotent on its own output: joining
the returned list with newlines and parsing it again yields the identical
list (every emitted code is a fixed point of normalization, and the list
is already duplicate-free). -/
theorem parsePostcodes_idem (raw : String) :
    parsePostcodes (joinNl (parsePostcodes raw)) = parsePostcodes raw := by
  by_cases hout : parsePostcodes raw = []
  · rw [hout]
    decide
  · set outs := parsePostcodes raw with houts
    have hfix : ∀ x ∈ outs, normalize (trimStr x) = x ∧ x ≠ "" :=
      fun x hx => mem_parse_fixed raw x (houts ▸ hx)
    have hchars : ∀ x ∈ outs, ∀ c ∈ x.data, c ≠ ',' ∧ c ≠ '\n' ∧ c ≠ '\r' :=
      fun x hx => parse_out_chars raw x (houts ▸ hx)
    have hnocomma : ∀ c ∈ joinSep ['\n'] (outs.map String.data), c ≠ ',' := by
      intro c hc
      rcases mem_joinSep _ _ c hc with h | ⟨x, hx, hcx⟩
      · simp at h
        subst h
        decide
      · rcases List.mem_map.mp hx with ⟨y, hy, hyx⟩
        subst hyx
        exact (hchars y hy c hcx).1
    have hsplit : splitRN (joinSep ['\n'] (outs.map String.data)) = outs.map String.data := by
      apply splitRN_joinSep
      · simp [hout]
      · intro x hx c hc
        rcases List.mem_map.mp hx with ⟨y, hy, hyx⟩
        subst hyx
        exact ⟨(hchars y hy c hc).2.1, (hchars y hy c hc).2.2⟩
    have htok : tokensOf (joinNl outs) = outs := by
      rw [tokensOf]
      rw [show (joinNl outs).data = joinSep ['\n'] (outs.map String.data) from rfl]
      rw [replaceCommas_id _ hnocomma, hsplit, List.map_map]
      have hmap : ∀ y ∈ outs,
          ((fun cs => normalize (trimStr (String.mk cs))) ∘ String.data) y = y := by
        intro y hy
        show normalize (trimStr (String.mk y.data)) = y
        rw [mk_data_id]
        exact (hfix y hy).1
      rw [List.map_congr_left hmap, List.map_id']
      exact List.filter_eq_self.mpr (fun y hy => by simpa using (hfix y hy).2)
    rw [parsePostcodes, htok]
    exact dedupAux_nodup_id outs []
      (by rw [houts]; exact nodup_dedupAux (tokensOf raw) []) (by simp)

end PostcodeApp
